import Mathlib

/-!
Shallow embedding of the `api-pleno` repository's orchestration core:
the `ApiController` operations (`getStockBySymbol`, `compareStockBySymbols`,
`getStockHistoryBySymbol`, `projectGains`) and the `HistorySearcher`
stream-window extractor, as found in the repository's controller source
(the `HistorySearcher`-based variant, which the design notes in the spec
single out as the canonical extractor behavior).

External collaborators (the validation collaborator, the two provider
services, and the JS `Date` conversions) are modelled as an explicit
environment record. Lines of the provider's streamed document are lists of
characters; JS `String.prototype.includes` is embedded as a substring test.
Decimal numbers are embedded as exact rationals.
-/

/-- Embedding of JS `line.includes(sub)`: `sub` occurs as a contiguous
substring of `l`. -/
def includes : List Char → List Char → Bool
  | [], sub => sub.isEmpty
  | c :: t, sub => sub.isPrefixOf (c :: t) || includes t sub

/-- The object-start marker character the scanner looks for (`'{'`). -/
def obrace : List Char := ['\x7b']

/-- The object-end marker character the scanner looks for (`'}'`). -/
def cbrace : List Char := ['\x7d']

/-- The provider's "stock not found" marker text (`'Error Message'`). -/
def errMarker : List Char := "Error Message".data

/-- Embedding of `HistorySearcher.removeLastCommaIfNecessary`: drop the final
character when the accumulated text ends with a comma. -/
def removeLastCommaIfNecessary (acc : List Char) : List Char :=
  if acc.getLast? = some ',' then acc.dropLast else acc

/-- Outcome of feeding a list of lines to the scanner: the promise settled
with the extracted text (`ok`), settled with the stock-not-found rejection
(`errStock`), or is still pending with the current mutable scanning state
(`running`). -/
inductive ScanOut
  | ok (s : List Char)
  | errStock
  | running (reading ending : Bool) (acc : List Char)
deriving DecidableEq

/-- Embedding of the per-line `data` handler of
`HistorySearcher.scanStreamForTimeInterval`, iterated over the lines in
stream order. The mutable `searchingState` is the pair `reading`/`ending`;
a conditional `x = true` assignment is embedded as `x || condition`.
The first settlement (reject on the error marker, resolve on the closing
line of the last wanted object) wins, as for a JS promise. -/
def runLines (firstDate lastDate : List Char) :
    Bool → Bool → List Char → List (List Char) → ScanOut
  | reading, ending, acc, [] => .running reading ending acc
  | reading, ending, acc, l :: ls =>
    if includes l errMarker then .errStock
    else
      let reading1 := reading || (includes l firstDate && includes l obrace)
      if reading1 = false then runLines firstDate lastDate reading1 ending acc ls
      else
        let ending1 := ending || (includes l lastDate && includes l obrace)
        let acc1 := acc ++ l
        if ending1 && includes l cbrace then
          .ok (removeLastCommaIfNecessary acc1 ++ cbrace)
        else runLines firstDate lastDate reading1 ending1 acc1 ls

/-- Failure modes of the history pipeline: the stream ended before the
window closed (`fromto`), the provider error-marker line was seen (`stock`),
or the extracted text was not parseable (`parsefail`, surfaced by the
controller as an unknown error). -/
inductive HErr
  | fromto
  | stock
  | parsefail
deriving DecidableEq

/-- Embedding of `HistorySearcher.scanStreamForTimeInterval`: run the line
handler from the initial state (`reading = false`, `ending = false`,
accumulator `"{"`); if the stream ends before the promise settles, the
`end` handler rejects with the date-not-found error. -/
def scanStreamForTimeInterval (lines : List (List Char))
    (firstDate lastDate : List Char) : Except HErr (List Char) :=
  match runLines firstDate lastDate false false obrace lines with
  | .ok s => .ok s
  | .errStock => .error .stock
  | .running _ _ _ => .error .fromto

/-- Whitespace skipping for the structural parse of the extracted text. -/
def skipWs (s : List Char) : List Char :=
  s.dropWhile (fun c => c = ' ' || c = '\n' || c = '\t' || c = '\r')

/-- Read characters up to the next double quote; `none` when no closing
quote exists. -/
def takeUntilQuote : List Char → Option (List Char × List Char)
  | [] => none
  | c :: rest =>
    if c = '"' then some ([], rest)
    else
      match takeUntilQuote rest with
      | some (s, r) => some (c :: s, r)
      | none => none

/-- Parse a double-quoted string (no escape sequences occur in the
provider's document). -/
def parseQuoted (s : List Char) : Option (List Char × List Char) :=
  match skipWs s with
  | c :: rest => if c = '"' then takeUntilQuote rest else none
  | [] => none

/-- Expect one character, skipping leading whitespace. -/
def expectChar (c : Char) (s : List Char) : Option (List Char) :=
  match skipWs s with
  | d :: r => if d = c then some r else none
  | [] => none

/-- Parse one `"key": "value"` pair. -/
def parseKV (s : List Char) : Option ((List Char × List Char) × List Char) := do
  let (k, r1) ← parseQuoted s
  let r2 ← expectChar ':' r1
  let (v, r3) ← parseQuoted r2
  pure ((k, v), r3)

/-- Parse the body of one day's sub-record after its opening brace: the
four fixed-shape quoted fields separated by commas, then the closing brace
(spec: each day's sub-record carries four numeric sub-fields under fixed
label keys). -/
def parseRecordBody (s : List Char) :
    Option (List (List Char × List Char) × List Char) := do
  let (kv1, r1) ← parseKV s
  let r2 ← expectChar ',' r1
  let (kv2, r3) ← parseKV r2
  let r4 ← expectChar ',' r3
  let (kv3, r5) ← parseKV r4
  let r6 ← expectChar ',' r5
  let (kv4, r7) ← parseKV r6
  let r8 ← expectChar '\x7d' r7
  pure ([kv1, kv2, kv3, kv4], r8)

/-- Parse one or more `"date": { ... }` entries separated by commas and
terminated by the object's closing brace; fuelled recursion (each entry
consumes at least one character, so the fuel used at the top level
suffices). -/
def parseEntriesF :
    Nat → List Char →
    Option (List (List Char × List (List Char × List Char)) × List Char)
  | 0, _ => none
  | fuel + 1, s => do
    let (key, r1) ← parseQuoted s
    let r2 ← expectChar ':' r1
    let r3 ← expectChar '\x7b' r2
    let (kvs, r4) ← parseRecordBody r3
    match skipWs r4 with
    | c :: r5 =>
      if c = ',' then do
        let (es, rr) ← parseEntriesF fuel r5
        pure ((key, kvs) :: es, rr)
      else if c = '\x7d' then pure ([(key, kvs)], r5)
      else none
    | [] => none

/-- Embedding of `getUnformatedJSONHistoryInterval` (`JSON.parse`) restricted
to the shape of the extracted text: an object mapping date keys to
fixed-shape records, entries kept in textual order (JS preserves insertion
order for these non-index keys). Malformed input yields `none`, which the
controller surfaces as an unknown error. -/
def parseJSONHistory (s : List Char) :
    Option (List (List Char × List (List Char × List Char))) :=
  match skipWs s with
  | c :: r =>
    if c = '\x7b' then
      if (skipWs r).headD ' ' = '\x7d' then
        if skipWs ((skipWs r).tailD []) = [] then some [] else none
      else
        match parseEntriesF (r.length + 1) r with
        | some (es, rest) => if skipWs rest = [] then some es else none
        | none => none
    else none
  | [] => none

/-- Value of a digit string (used by the embedding of JS `Number`). -/
def digitsVal (s : List Char) : Nat :=
  s.foldl (fun a c => a * 10 + (c.toNat - 48)) 0

/-- Embedding of JS `Number(text)` on the plain decimal literals occurring
in the provider's document, as an exact rational. -/
def numOfString (s : List Char) : ℚ :=
  let ip := s.takeWhile (·.isDigit)
  let rest := s.dropWhile (·.isDigit)
  match rest with
  | '.' :: fr => (digitsVal ip : ℚ) + (digitsVal fr : ℚ) / ((10 : ℚ) ^ fr.length)
  | _ => (digitsVal ip : ℚ)

/-- JS `Number` applied to a string value. -/
def numOfStringS (s : String) : ℚ := numOfString s.data

/-- Models `new Date(d).toISOString()` for a canonical `YYYY-MM-DD`
calendar-date string, for which the JS conversion appends the midnight-UTC
time part (spec: dates are calendar date strings on input, ISO-8601
instants on output). -/
def isoOfDateOnly (s : String) : String := s ++ "T00:00:00.000Z"

/-- Models `new Date(d).toISOString().split('T')[0]` for a canonical
`YYYY-MM-DD` calendar-date string, on which the JS round-trip is the
identity. -/
def formatDateOnly (s : String) : String := s

/-- Embedding of `stock_name.toUpperCase()` (ASCII uppercasing). -/
def toUpperStr (s : String) : String := String.mk (s.data.map Char.toUpper)

/-- One typed price point of the history result (`HistoricPrices`). -/
structure HistoricPrices where
  opening : ℚ
  high : ℚ
  low : ℚ
  closing : ℚ
  pricedAt : String
deriving DecidableEq

/-- The fixed label key of the opening price sub-field. -/
def key1 : List Char := "1. open".data

/-- The fixed label key of the high price sub-field. -/
def key2 : List Char := "2. high".data

/-- The fixed label key of the low price sub-field. -/
def key3 : List Char := "3. low".data

/-- The fixed label key of the closing price sub-field. -/
def key4 : List Char := "4. close".data

/-- Key lookup in a parsed sub-record (`saidObj[key]`); an absent key is
modelled as the empty text. -/
def lookupValue (kvs : List (List Char × List Char)) (k : List Char) : List Char :=
  match kvs.lookup k with
  | some v => v
  | none => []

/-- Embedding of `HistorySearcher.formatJSONHistoryObject`: map every parsed
entry, in order, to a typed price point. -/
def formatJSONHistoryObject
    (obj : List (List Char × List (List Char × List Char))) : List HistoricPrices :=
  obj.map fun e =>
    { opening := numOfString (lookupValue e.2 key1)
      high := numOfString (lookupValue e.2 key2)
      low := numOfString (lookupValue e.2 key3)
      closing := numOfString (lookupValue e.2 key4)
      pricedAt := isoOfDateOnly (String.mk e.1) }

/-- Embedding of `HistorySearcher.searchTimeIntervalInHistory`: normalize
the boundary dates (the normalized `to` date is the first to appear in the
newest-first stream, the normalized `from` date the last), scan, parse and
format. -/
def searchTimeIntervalInHistory (lines : List (List Char))
    (fromDate toDate : String) : Except HErr (List HistoricPrices) :=
  let formatedToDate := (formatDateOnly toDate).data
  let formatedFromDate := (formatDateOnly fromDate).data
  match scanStreamForTimeInterval lines formatedToDate formatedFromDate with
  | .error e => .error e
  | .ok s =>
    match parseJSONHistory s with
    | some obj => .ok (formatJSONHistoryObject obj)
    | none => .error .parsefail

/-- The two-kind error taxonomy: `NotFoundError({field: value})` carries the
offending field name and value; `UnknownError` carries nothing. -/
inductive ApiErr
  | notFound (field value : String)
  | unknown
deriving DecidableEq

/-- Result envelope of every outward controller operation:
`ControllerSuccess` or a `BaseError[]` list. -/
inductive CtrlResult (α : Type)
  | success (result : α)
  | errors (errs : List ApiErr)
deriving DecidableEq

/-- The validation checks of `ParameterValidator.getValidationErrors`,
identified by their `ValidatationTypes` tag, the field name and the field
value(s). -/
inductive VType
  | STRING
  | DATE
  | IS_NOT_WEEKEND
  | NOT_TODAY_OR_AFTER
  | DATE_INTERVAL
  | POSITIVE_NUMBER
deriving DecidableEq

/-- One requested validation check. -/
structure Check where
  vtype : VType
  field : String
  values : List String
deriving DecidableEq

/-- Outcome of a Yahoo quote-provider call: a structured quote, or a thrown
fault carrying its `code`. -/
inductive YahooOutcome
  | ok (symbol : String) (regularMarketPrice : ℚ) (regularMarketTime : Nat)
  | fault (code : String)
deriving DecidableEq

/-- Observable calls an operation makes: a validation-collaborator call, a
Yahoo quote-provider call, or an AlphaVantage history-provider call. -/
inductive Event
  | validateCall (checks : List Check)
  | yahooCall (symbol : String)
  | alphaCall (symbol : String)
deriving DecidableEq

/-- The operations' external collaborators: the validation collaborator,
the two providers, and the JS epoch-to-ISO timestamp conversion used for
quote timestamps. -/
structure Env where
  getValidationErrors : List Check → Option (List ApiErr)
  yahooGetStockBySymbol : String → YahooOutcome
  alphaHistoryLines : String → List (List Char)
  epochSecondsToIso : Nat → String

/-- Quote result shape (`GetStockBySymbol` endpoint type). -/
structure GetStockBySymbol where
  name : String
  lastPrice : ℚ
  pricedAt : String
deriving DecidableEq

/-- Comparison result shape (`CompareStockBySymbols` endpoint type). -/
structure CompareStockBySymbols where
  lastPrices : List GetStockBySymbol
deriving DecidableEq

/-- History result shape (`GetStockHistoryBySymbol` endpoint type). -/
structure GetStockHistoryBySymbol where
  name : String
  prices : List HistoricPrices
deriving DecidableEq

/-- Gains projection result shape (`GetProjectedGains` endpoint type). -/
structure GetProjectedGains where
  name : String
  lastPrice : ℚ
  priceAtDate : ℚ
  purchasedAmount : ℚ
  purchasedAt : String
  capitalGains : ℚ
deriving DecidableEq

/-- The validation checks issued by `getStockBySymbol`. -/
def quoteChecks (stock_name : String) : List Check :=
  [⟨.STRING, "stock_name", [stock_name]⟩]

/-- The validation checks issued by `getStockHistoryBySymbol`. -/
def historyChecks (stock_name fromD toD : String) : List Check :=
  [⟨.STRING, "stock_name", [stock_name]⟩,
   ⟨.DATE, "from", [fromD]⟩,
   ⟨.DATE, "to", [toD]⟩,
   ⟨.IS_NOT_WEEKEND, "from", [fromD]⟩,
   ⟨.IS_NOT_WEEKEND, "to", [toD]⟩,
   ⟨.NOT_TODAY_OR_AFTER, "from", [fromD]⟩,
   ⟨.NOT_TODAY_OR_AFTER, "to", [toD]⟩,
   ⟨.DATE_INTERVAL, "from_to", [fromD, toD]⟩]

/-- The validation checks issued by `projectGains`. -/
def gainsChecks (stock_name purchasedAmount purchasedAt : String) : List Check :=
  [⟨.STRING, "stock_name", [stock_name]⟩,
   ⟨.POSITIVE_NUMBER, "purchasedAmount", [purchasedAmount]⟩,
   ⟨.DATE, "purchasedAt", [purchasedAt]⟩,
   ⟨.IS_NOT_WEEKEND, "purchasedAt", [purchasedAt]⟩,
   ⟨.NOT_TODAY_OR_AFTER, "purchasedAt", [purchasedAt]⟩]

/-- Embedding of `ApiController.getStockBySymbol`, paired with the trace of
collaborator calls it makes. -/
def getStockBySymbol (env : Env) (stock_name : String) :
    CtrlResult GetStockBySymbol × List Event :=
  let checks := quoteChecks stock_name
  match env.getValidationErrors checks with
  | some errs => (.errors errs, [.validateCall checks])
  | none =>
    match env.yahooGetStockBySymbol stock_name with
    | .ok symbol price time =>
      (.success { name := symbol, lastPrice := price
                  pricedAt := env.epochSecondsToIso time },
       [.validateCall checks, .yahooCall stock_name])
    | .fault code =>
      if code = "Not Found" then
        (.errors [.notFound "stock_name" stock_name],
         [.validateCall checks, .yahooCall stock_name])
      else
        (.errors [.unknown], [.validateCall checks, .yahooCall stock_name])

/-- The symbol loop of `compareStockBySymbols`: one `getStockBySymbol` call
per symbol in input order, collecting successes and concatenating error
lists, each in input order. -/
def compareLoop (env : Env) :
    List String → List GetStockBySymbol × List ApiErr × List Event
  | [] => ([], [], [])
  | stock :: rest =>
    let r := getStockBySymbol env stock
    let acc := compareLoop env rest
    match r.1 with
    | .success q => (q :: acc.1, acc.2.1, r.2 ++ acc.2.2)
    | .errors es => (acc.1, es ++ acc.2.1, r.2 ++ acc.2.2)

/-- Embedding of `ApiController.compareStockBySymbols`: no validation of its
own; iterates `getStockBySymbol` over `[stock_name, ...stocks]`; fails with
the concatenated error list when any error was collected. -/
def compareStockBySymbols (env : Env) (stock_name : String)
    (stocks : List String) : CtrlResult CompareStockBySymbols × List Event :=
  let acc := compareLoop env (stock_name :: stocks)
  (if acc.2.1.length > 0 then .errors acc.2.1
   else .success { lastPrices := acc.1 },
   acc.2.2)

/-- Embedding of `ApiController.getStockHistoryBySymbol` (the
`HistorySearcher`-based variant): validate, stream the history, extract,
parse and format; the `fromto` rejection becomes the two-error
`[NotFound(from), NotFound(to)]`, the `stock` rejection becomes
`[NotFound(stock_name)]`, anything else an unknown error. -/
def getStockHistoryBySymbol (env : Env) (stock_name fromD toD : String) :
    CtrlResult GetStockHistoryBySymbol × List Event :=
  let checks := historyChecks stock_name fromD toD
  match env.getValidationErrors checks with
  | some errs => (.errors errs, [.validateCall checks])
  | none =>
    let evs := [.validateCall checks, .alphaCall stock_name]
    match searchTimeIntervalInHistory (env.alphaHistoryLines stock_name) fromD toD with
    | .ok prices => (.success { name := toUpperStr stock_name, prices := prices }, evs)
    | .error .fromto => (.errors [.notFound "from" fromD, .notFound "to" toD], evs)
    | .error .stock => (.errors [.notFound "stock_name" stock_name], evs)
    | .error .parsefail => (.errors [.unknown], evs)

/-- The `didNotFindDate` remodeling in `projectGains`: a failure list whose
first element is a `NotFoundError` and whose length is exactly two (the
internal from/to pair of a single-day history lookup) is rewritten to the
single error `NotFound(purchasedAt)`; anything else is returned unchanged. -/
def collapseDateErrors (purchasedAt : String) (es : List ApiErr) : List ApiErr :=
  match es with
  | .notFound _ _ :: _ =>
    if es.length = 2 then [.notFound "purchasedAt" purchasedAt] else es
  | _ => es

/-- JS `prices[0].closing`; every reachable success carries a non-empty
price list. -/
def firstClosing (prices : List HistoricPrices) : ℚ :=
  match prices with
  | p :: _ => p.closing
  | [] => 0

/-- Embedding of JS `Number(x.toFixed(2))`: rounding to two decimal
places. -/
def round2 (q : ℚ) : ℚ := (Int.fdiv (q * 100 + 1 / 2).num (q * 100 + 1 / 2).den : ℚ) / 100

/-- Embedding of `ApiController.projectGains` (the repository's
`HistorySearcher`-based controller variant): validate, issue the quote and
single-day history lookups, return the quote failure if the quote side
failed, otherwise the (date-collapsed) history failure if the history side
failed, otherwise combine the two successes. -/
def projectGains (env : Env) (stock_name purchasedAmount purchasedAt : String) :
    CtrlResult GetProjectedGains × List Event :=
  let checks := gainsChecks stock_name purchasedAmount purchasedAt
  match env.getValidationErrors checks with
  | some errs => (.errors errs, [.validateCall checks])
  | none =>
    let td := getStockBySymbol env stock_name
    let od := getStockHistoryBySymbol env stock_name purchasedAt purchasedAt
    let evs := Event.validateCall checks :: (td.2 ++ od.2)
    match td.1 with
    | .errors es => (.errors es, evs)
    | .success q =>
      match od.1 with
      | .errors es => (.errors (collapseDateErrors purchasedAt es), evs)
      | .success h =>
        let totalToday := q.lastPrice * numOfStringS purchasedAmount
        let totalOnDate := firstClosing h.prices * numOfStringS purchasedAmount
        (.success { name := toUpperStr stock_name
                    lastPrice := q.lastPrice
                    priceAtDate := firstClosing h.prices
                    purchasedAmount := numOfStringS purchasedAmount
                    purchasedAt := isoOfDateOnly purchasedAt
                    capitalGains := round2 (totalToday - totalOnDate) }, evs)

/-- One day's raw OHLC sub-record as it appears in the source document:
the four numeric sub-fields as decimal text. -/
structure Ohlc where
  opening : List Char
  high : List Char
  low : List Char
  closing : List Char
deriving DecidableEq

/-- The opening line of one day's record in the streamed document:
`"date": {`. -/
def openL (d : List Char) : List Char := '"' :: d ++ ['"', ':', ' ', '\x7b']

/-- One field line of a day's record: `"key": "value"`, with a trailing
comma when another field follows. -/
def fieldL (k v : List Char) (comma : Bool) : List Char :=
  '"' :: k ++ ['"', ':', ' ', '"'] ++ v ++ (if comma then ['"', ','] else ['"'])

/-- The closing line of a day's record: `},` when another record follows,
`}` when the record is the physically last of the document. -/
def closeL (comma : Bool) : List Char := if comma then ['\x7d', ','] else ['\x7d']

/-- The four field lines of one day's record, in document order. -/
def fieldLinesOf (r : Ohlc) : List (List Char) :=
  [fieldL key1 r.opening true, fieldL key2 r.high true,
   fieldL key3 r.low true, fieldL key4 r.closing false]

/-- The lines of one day's record, in document order. -/
def recordLines (d : List Char) (r : Ohlc) (comma : Bool) : List (List Char) :=
  openL d :: fieldLinesOf r ++ [closeL comma]

/-- The characters of one day's record with its lines concatenated, as the
scanner accumulates them. -/
def recordFlat (d : List Char) (r : Ohlc) (comma : Bool) : List Char :=
  openL d ++ (fieldL key1 r.opening true ++ (fieldL key2 r.high true ++
    (fieldL key3 r.low true ++ (fieldL key4 r.closing false ++ closeL comma))))

/-- The lines of a run of consecutive records ending at the physically last
record of the document (so the final record's closing line has no trailing
comma). -/
def windowLinesDoc : List (List Char × Ohlc) → List (List Char)
  | [] => []
  | [e] => recordLines e.1 e.2 false
  | e :: rest => recordLines e.1 e.2 true ++ windowLinesDoc rest

/-- The concatenated characters of such a run of records. -/
def windowFlat : List (List Char × Ohlc) → List Char
  | [] => []
  | [e] => recordFlat e.1 e.2 false
  | e :: rest => recordFlat e.1 e.2 true ++ windowFlat rest

/-- The standalone object text the extractor is expected to produce for a
run of records. -/
def windowText (w : List (List Char × Ohlc)) : List Char :=
  obrace ++ (windowFlat w ++ cbrace)

/-- The entry `JSON.parse` produces for one day's record. -/
def parsedEntry (e : List Char × Ohlc) : List Char × List (List Char × List Char) :=
  (e.1, [(key1, e.2.opening), (key2, e.2.high), (key3, e.2.low), (key4, e.2.closing)])

/-- The typed price point the formatter produces for one day's record. -/
def formatOf (e : List Char × Ohlc) : HistoricPrices :=
  { opening := numOfString e.2.opening
    high := numOfString e.2.high
    low := numOfString e.2.low
    closing := numOfString e.2.closing
    pricedAt := isoOfDateOnly (String.mk e.1) }

/-- Well-formedness of one record's text for the structural parse: the date
key and the four field values contain no double quote. -/
@[reducible] def cleanEntry (e : List Char × Ohlc) : Prop :=
  '"' ∉ e.1 ∧ '"' ∉ e.2.opening ∧ '"' ∉ e.2.high ∧ '"' ∉ e.2.low ∧ '"' ∉ e.2.closing

/-- Lines the scanner skips while idle: no error marker, and not a line
carrying both the open-boundary date token and an object-start marker. -/
@[reducible] def skipLineOk (firstDate : List Char) (l : List Char) : Prop :=
  includes l errMarker = false ∧ (includes l firstDate && includes l obrace) = false

/-- Conditions on a record strictly before the close-boundary record of the
window: no error marker anywhere, and the close-boundary date token does
not occur in it (in its opening line, nor in a field line that also carries
an object-start marker). -/
@[reducible] def midOk (lastDate : List Char) (e : List Char × Ohlc) : Prop :=
  includes (openL e.1) errMarker = false ∧
  includes (openL e.1) lastDate = false ∧
  ∀ l ∈ fieldLinesOf e.2, includes l errMarker = false ∧
    (includes l lastDate && includes l obrace) = false

/-- Conditions on the close-boundary (final) record of the window: no error
marker, and no object-end marker before its closing line. -/
@[reducible] def lastOk (e : List Char × Ohlc) : Prop :=
  includes (openL e.1) errMarker = false ∧
  includes (openL e.1) cbrace = false ∧
  ∀ l ∈ fieldLinesOf e.2, includes l errMarker = false ∧ includes l cbrace = false

/-- The key/value pairs `JSON.parse` produces for one day's sub-record. -/
def recordKVs (r : Ohlc) : List (List Char × List Char) :=
  [(key1, r.opening), (key2, r.high), (key3, r.low), (key4, r.closing)]

/-- Well-formedness of the window's run of records with respect to the
close-boundary date token `lD`: every record before the last is `midOk`
(no marker, no close-boundary token), and the final record opens with the
close-boundary token and is `lastOk`. -/
@[reducible] def windowOk (lD : List Char) : List (List Char × Ohlc) → Prop
  | [] => False
  | [e] => lastOk e ∧ includes (openL e.1) lD = true
  | e :: rest => midOk lD e ∧ windowOk lD rest

/-- The error list of a controller result (empty for a success). -/
def errorsOf {α : Type} : CtrlResult α → List ApiErr
  | .success _ => []
  | .errors es => es

/-- The success value of a controller result, when present. -/
def successOf {α : Type} : CtrlResult α → Option α
  | .success q => some q
  | .errors _ => none

/-- A concrete three-day OHLC record (integer decimal texts keep witness
evaluation structural). -/
def exR1 : Ohlc := ⟨"147".data, "149".data, "146".data, "149".data⟩

/-- Second concrete record. -/
def exR2 : Ohlc := ⟨"147".data, "148".data, "146".data, "146".data⟩

/-- Third concrete record (the document's physically last). -/
def exR3 : Ohlc := ⟨"146".data, "148".data, "145".data, "147".data⟩

/-- Header lines of the concrete document (document opening and the series
key line). -/
def exHeader : List (List Char) :=
  ["\x7b".data, "  \"Time Series (Daily)\": \x7b".data]

/-- The concrete document's record run, newest date first, the oldest date
being the physically last record. -/
def exRecords : List (List Char × Ohlc) :=
  [("2022-11-22".data, exR1), ("2022-11-21".data, exR2), ("2022-11-18".data, exR3)]

/-- The concrete streamed document: header, then the records, the last one
closing without a trailing separator. -/
def exDoc : List (List Char) := exHeader ++ windowLinesDoc exRecords

/-- Environment whose collaborators all succeed: validation passes, the
quote provider returns a fixed quote, the history provider streams the
concrete document. -/
def cenvA : Env :=
  { getValidationErrors := fun _ => none
    yahooGetStockBySymbol := fun _ => .ok "IBM" 155 100
    alphaHistoryLines := fun _ => exDoc
    epochSecondsToIso := fun _ => "1970-01-01T00:01:40.000Z" }

/-- Environment in which the quote provider throws a non-not-found fault
and the history stream is empty (so both lookups of a gains projection
fail). -/
def cenvBothFail : Env :=
  { getValidationErrors := fun _ => none
    yahooGetStockBySymbol := fun _ => .fault "ECONNRESET"
    alphaHistoryLines := fun _ => []
    epochSecondsToIso := fun _ => "1970-01-01T00:01:40.000Z" }

/-- Environment in which the quote provider signals not-found and the
history stream is empty. -/
def cenvQuoteNF : Env :=
  { getValidationErrors := fun _ => none
    yahooGetStockBySymbol := fun _ => .fault "Not Found"
    alphaHistoryLines := fun _ => []
    epochSecondsToIso := fun _ => "1970-01-01T00:01:40.000Z" }

/-- Environment in which the quote provider succeeds but the history
stream is empty. -/
def cenvHistEmpty : Env :=
  { getValidationErrors := fun _ => none
    yahooGetStockBySymbol := fun _ => .ok "IBM" 155 100
    alphaHistoryLines := fun _ => []
    epochSecondsToIso := fun _ => "1970-01-01T00:01:40.000Z" }

/-- Environment whose history stream is a single provider error-marker
line. -/
def cenvMarker : Env :=
  { getValidationErrors := fun _ => none
    yahooGetStockBySymbol := fun _ => .ok "IBM" 155 100
    alphaHistoryLines := fun _ =>
      ["  \"Error Message\": \"Invalid API call.\"".data]
    epochSecondsToIso := fun _ => "1970-01-01T00:01:40.000Z" }

/-- Environment in which every validation request fails with a fixed
one-error list. -/
def cenvValFail : Env :=
  { getValidationErrors := fun _ => some [.notFound "stock_name" ""]
    yahooGetStockBySymbol := fun _ => .ok "IBM" 155 100
    alphaHistoryLines := fun _ => exDoc
    epochSecondsToIso := fun _ => "1970-01-01T00:01:40.000Z" }

/-- Decidability of window well-formedness, by recursion on the run. -/
instance windowOkDec (lD : List Char) :
    (w : List (List Char × Ohlc)) → Decidable (windowOk lD w)
  | [] => .isFalse (fun h => h)
  | [e] => inferInstanceAs (Decidable (lastOk e ∧ includes (openL e.1) lD = true))
  | e :: e2 :: rest =>
    have : Decidable (windowOk lD (e2 :: rest)) := windowOkDec lD (e2 :: rest)
    inferInstanceAs (Decidable (midOk lD e ∧ windowOk lD (e2 :: rest)))

/-- Substring containment: `includes` decides the infix relation. -/
theorem includes_correct (l sub : List Char) : includes l sub = true ↔ sub <:+: l := by
  induction l with
  | nil =>
    simp [includes, List.isEmpty_iff]
  | cons c t ih =>
    simp only [includes, Bool.or_eq_true, List.isPrefixOf_iff_prefix, ih,
      List.infix_cons_iff]

/-- A block occurring between two others is contained as a substring. -/
theorem includes_of_eq_append (l a sub b : List Char) (h : l = a ++ sub ++ b) :
    includes l sub = true := by
  subst h
  exact (includes_correct _ _).mpr ⟨a, b, rfl⟩

/-- The opening line of a record contains its own date token. -/
theorem includes_openL_self (d : List Char) : includes (openL d) d = true := by
  refine includes_of_eq_append _ ['"'] d ['"', ':', ' ', '\x7b'] ?_
  simp [openL]

/-- The opening line of a record contains the object-start marker. -/
theorem includes_openL_obrace (d : List Char) : includes (openL d) obrace = true := by
  refine includes_of_eq_append _ ('"' :: d ++ ['"', ':', ' ']) obrace [] ?_
  simp [openL, obrace]

/-- Running the scanner over concatenated line lists: the second list is
processed from the state the first list leaves behind, unless the promise
already settled. -/
theorem runLines_append (fD lD : List Char) (reading ending : Bool) (acc : List Char)
    (xs ys : List (List Char)) :
    runLines fD lD reading ending acc (xs ++ ys) =
      match runLines fD lD reading ending acc xs with
      | .running r2 e2 a2 => runLines fD lD r2 e2 a2 ys
      | .ok s => .ok s
      | .errStock => .errStock := by
  induction xs generalizing reading ending acc with
  | nil => simp [runLines]
  | cons l ls ih =>
    simp only [List.cons_append, runLines]
    by_cases hm : includes l errMarker = true
    · simp [hm]
    · simp only [Bool.not_eq_true] at hm
      simp only [hm, if_false, Bool.false_eq_true]
      by_cases hr : (reading || (includes l fD && includes l obrace)) = false
      · simp only [hr, if_pos, Bool.false_eq_true]
        exact ih _ _ _
      · simp only [hr, if_neg, Bool.false_eq_true]
        by_cases he : ((ending || (includes l lD && includes l obrace)) && includes l cbrace) = true
        · simp [he]
        · simp only [Bool.not_eq_true] at he
          simp [he, ih]

/-- While the scanner is idle, lines without the error marker and without
the open-boundary trigger are skipped without changing state or
accumulator. -/
theorem runLines_skip (fD lD : List Char) (ending : Bool) (acc : List Char)
    (xs ys : List (List Char)) (h : ∀ l ∈ xs, skipLineOk fD l) :
    runLines fD lD false ending acc (xs ++ ys) = runLines fD lD false ending acc ys := by
  induction xs with
  | nil => simp
  | cons l ls ih =>
    have hl := h l (List.mem_cons_self l ls)
    obtain ⟨hm, ht⟩ := hl
    simp only [List.cons_append, runLines, hm, Bool.false_eq_true, if_false, ht,
      Bool.or_false]
    exact ih (fun x hx => h x (List.mem_cons_of_mem l hx))

/-- While reading with the close boundary not yet seen, a record that does
not contain the close-boundary date token is accumulated verbatim and the
scanner keeps reading. -/
theorem runLines_passRecord (fD lD d : List Char) (r : Ohlc) (acc : List Char)
    (rest : List (List Char)) (h : midOk lD (d, r)) :
    runLines fD lD true false acc (recordLines d r true ++ rest) =
      runLines fD lD true false (acc ++ recordFlat d r true) rest := by
  obtain ⟨hm, hend, hf⟩ := h
  simp only [fieldLinesOf, List.mem_cons, List.not_mem_nil, or_false,
    forall_eq_or_imp, forall_eq] at hf
  obtain ⟨⟨hm1, he1⟩, ⟨hm2, he2⟩, ⟨hm3, he3⟩, ⟨hm4, he4⟩⟩ := hf
  have hcm : includes (closeL true) errMarker = false := by decide
  have hco : includes (closeL true) obrace = false := by decide
  simp only [recordLines, fieldLinesOf, List.cons_append, List.append_assoc,
    List.nil_append, runLines, hm, hm1, hm2, hm3, hm4, hcm, hend, he1, he2, he3, he4,
    hco, includes_openL_obrace, Bool.false_eq_true, if_false, Bool.true_or,
    Bool.false_or, Bool.or_false, Bool.and_false, Bool.false_and, Bool.and_self,
    Bool.true_eq_false, Bool.false_eq_true, reduceIte, recordFlat]
  rfl

/-- Trimming the accumulated text of a record run: the conditional comma
trim turns a record accumulated with a trailing-comma closing line into the
same record with a bare closing line, and leaves a record with a bare
closing line unchanged. -/
theorem removeLastComma_record (acc d : List Char) (r : Ohlc) (comma : Bool) :
    removeLastCommaIfNecessary (acc ++ recordFlat d r comma) =
      acc ++ recordFlat d r false := by
  cases comma with
  | true =>
    have h : acc ++ recordFlat d r true = (acc ++ recordFlat d r false) ++ [','] := by
      simp [recordFlat, closeL, List.append_assoc]
    rw [removeLastCommaIfNecessary, h, List.getLast?_concat, if_pos rfl,
      List.dropLast_concat]
  | false =>
    rw [removeLastCommaIfNecessary, if_neg]
    have h : acc ++ recordFlat d r false = (acc ++ (openL d ++ (fieldL key1 r.opening true ++
        (fieldL key2 r.high true ++ (fieldL key3 r.low true ++
        fieldL key4 r.closing false))))) ++ ['\x7d'] := by
      simp [recordFlat, closeL, List.append_assoc]
    rw [h, List.getLast?_concat]
    simp

/-- While reading with `ending` still unset, the record whose opening line
carries the close-boundary date token completes the extraction: the record
is accumulated, the trailing separator (if any) trimmed, and the closing
marker appended. -/
theorem runLines_lastRecord (fD lD d : List Char) (r : Ohlc) (comma : Bool)
    (acc : List Char) (rest : List (List Char)) (h : lastOk (d, r))
    (hLast : includes (openL d) lD = true) :
    runLines fD lD true false acc (recordLines d r comma ++ rest) =
      .ok ((acc ++ recordFlat d r false) ++ cbrace) := by
  obtain ⟨hm, hoc, hf⟩ := h
  simp only [fieldLinesOf, List.mem_cons, List.not_mem_nil, or_false,
    forall_eq_or_imp, forall_eq] at hf
  obtain ⟨⟨hm1, hc1⟩, ⟨hm2, hc2⟩, ⟨hm3, hc3⟩, ⟨hm4, hc4⟩⟩ := hf
  have hcm : includes (closeL comma) errMarker = false := by cases comma <;> decide
  have hcc : includes (closeL comma) cbrace = true := by cases comma <;> decide
  have hrc : removeLastCommaIfNecessary (acc ++ (openL d ++ (fieldL key1 r.opening true ++
      (fieldL key2 r.high true ++ (fieldL key3 r.low true ++
      (fieldL key4 r.closing false ++ closeL comma)))))) = acc ++ recordFlat d r false := by
    have := removeLastComma_record acc d r comma
    simpa [recordFlat, List.append_assoc] using this
  simp only [recordLines, fieldLinesOf, List.cons_append, List.append_assoc,
    List.nil_append, runLines, hm, hm1, hm2, hm3, hm4, hcm, hLast, hoc, hc1, hc2,
    hc3, hc4, hcc, includes_openL_obrace, Bool.false_eq_true, if_false, Bool.true_or,
    Bool.false_or, Bool.or_false, Bool.and_false, Bool.false_and, Bool.and_self,
    Bool.true_and, Bool.and_true, Bool.true_eq_false, reduceIte]
  rw [hrc]
  simp [List.append_assoc]

/-- An idle scanner whose next record opens with the open-boundary date
token starts reading at that line and accumulates the whole record,
provided the record does not carry the close-boundary token. -/
theorem runLines_startRecord (fD lD d : List Char) (r : Ohlc) (acc : List Char)
    (rest : List (List Char)) (h : midOk lD (d, r))
    (hStart : includes (openL d) fD = true) :
    runLines fD lD false false acc (recordLines d r true ++ rest) =
      runLines fD lD true false (acc ++ recordFlat d r true) rest := by
  obtain ⟨hm, hend, hf⟩ := h
  simp only [fieldLinesOf, List.mem_cons, List.not_mem_nil, or_false,
    forall_eq_or_imp, forall_eq] at hf
  obtain ⟨⟨hm1, he1⟩, ⟨hm2, he2⟩, ⟨hm3, he3⟩, ⟨hm4, he4⟩⟩ := hf
  have hcm : includes (closeL true) errMarker = false := by decide
  have hco : includes (closeL true) obrace = false := by decide
  simp only [recordLines, fieldLinesOf, List.cons_append, List.append_assoc,
    List.nil_append, runLines, hm, hm1, hm2, hm3, hm4, hcm, hend, he1, he2, he3, he4,
    hco, hStart, includes_openL_obrace, Bool.false_eq_true, if_false, Bool.true_or,
    Bool.false_or, Bool.or_false, Bool.and_false, Bool.false_and, Bool.and_self,
    Bool.true_eq_false, reduceIte, recordFlat]
  rfl

/-- An idle scanner whose next record opens with a line carrying both
boundary date tokens (the single-record window) accumulates and closes
using only that one trigger line's record. -/
theorem runLines_singleRecord (fD lD d : List Char) (r : Ohlc) (comma : Bool)
    (acc : List Char) (rest : List (List Char)) (h : lastOk (d, r))
    (hStart : includes (openL d) fD = true) (hLast : includes (openL d) lD = true) :
    runLines fD lD false false acc (recordLines d r comma ++ rest) =
      .ok ((acc ++ recordFlat d r false) ++ cbrace) := by
  obtain ⟨hm, hoc, hf⟩ := h
  simp only [fieldLinesOf, List.mem_cons, List.not_mem_nil, or_false,
    forall_eq_or_imp, forall_eq] at hf
  obtain ⟨⟨hm1, hc1⟩, ⟨hm2, hc2⟩, ⟨hm3, hc3⟩, ⟨hm4, hc4⟩⟩ := hf
  have hcm : includes (closeL comma) errMarker = false := by cases comma <;> decide
  have hcc : includes (closeL comma) cbrace = true := by cases comma <;> decide
  have hrc : removeLastCommaIfNecessary (acc ++ (openL d ++ (fieldL key1 r.opening true ++
      (fieldL key2 r.high true ++ (fieldL key3 r.low true ++
      (fieldL key4 r.closing false ++ closeL comma)))))) = acc ++ recordFlat d r false := by
    have := removeLastComma_record acc d r comma
    simpa [recordFlat, List.append_assoc] using this
  simp only [recordLines, fieldLinesOf, List.cons_append, List.append_assoc,
    List.nil_append, runLines, hm, hm1, hm2, hm3, hm4, hcm, hStart, hLast, hoc, hc1,
    hc2, hc3, hc4, hcc, includes_openL_obrace, Bool.false_eq_true, if_false,
    Bool.true_or, Bool.false_or, Bool.or_false, Bool.and_false, Bool.false_and,
    Bool.and_self, Bool.true_and, Bool.and_true, Bool.true_eq_false, reduceIte]
  rw [hrc]
  simp [List.append_assoc]

/-- A reading scanner fed a well-formed run of records closes the window at
the final record's closing line, producing the accumulated run with the
final trailing separator handled and the closing marker appended. -/
theorem runLines_window_reading (fD lD : List Char) (w : List (List Char × Ohlc))
    (acc : List Char) (rest : List (List Char)) (h : windowOk lD w) :
    runLines fD lD true false acc (windowLinesDoc w ++ rest) =
      .ok ((acc ++ windowFlat w) ++ cbrace) := by
  induction w generalizing acc with
  | nil => simp only [windowOk] at h
  | cons e tail ih =>
    cases tail with
    | nil =>
      obtain ⟨hL, hO⟩ := h
      have := runLines_lastRecord fD lD e.1 e.2 false acc rest hL hO
      simpa [windowLinesDoc, windowFlat] using this
    | cons e2 t =>
      obtain ⟨hMid, hWin⟩ := h
      have h1 := runLines_passRecord fD lD e.1 e.2 acc
        (windowLinesDoc (e2 :: t) ++ rest) hMid
      calc runLines fD lD true false acc (windowLinesDoc (e :: e2 :: t) ++ rest)
          = runLines fD lD true false (acc ++ recordFlat e.1 e.2 true)
              (windowLinesDoc (e2 :: t) ++ rest) := by
            simpa [windowLinesDoc, List.append_assoc] using h1
        _ = .ok (((acc ++ recordFlat e.1 e.2 true) ++ windowFlat (e2 :: t)) ++ cbrace) :=
            ih _ hWin
        _ = .ok ((acc ++ windowFlat (e :: e2 :: t)) ++ cbrace) := by
            simp [windowFlat, List.append_assoc]

/-- An idle scanner fed a well-formed run of records whose first record
opens with the open-boundary date token extracts exactly that run. -/
theorem runLines_window_start (fD lD : List Char) (e0 : List Char × Ohlc)
    (tail : List (List Char × Ohlc)) (acc : List Char) (rest : List (List Char))
    (hStart : includes (openL e0.1) fD = true) (h : windowOk lD (e0 :: tail)) :
    runLines fD lD false false acc (windowLinesDoc (e0 :: tail) ++ rest) =
      .ok ((acc ++ windowFlat (e0 :: tail)) ++ cbrace) := by
  cases tail with
  | nil =>
    obtain ⟨hL, hO⟩ := h
    have := runLines_singleRecord fD lD e0.1 e0.2 false acc rest hL hStart hO
    simpa [windowLinesDoc, windowFlat] using this
  | cons e2 t =>
    obtain ⟨hMid, hWin⟩ := h
    have h1 := runLines_startRecord fD lD e0.1 e0.2 acc
      (windowLinesDoc (e2 :: t) ++ rest) hMid hStart
    calc runLines fD lD false false acc (windowLinesDoc (e0 :: e2 :: t) ++ rest)
        = runLines fD lD true false (acc ++ recordFlat e0.1 e0.2 true)
            (windowLinesDoc (e2 :: t) ++ rest) := by
          simpa [windowLinesDoc, List.append_assoc] using h1
      _ = .ok (((acc ++ recordFlat e0.1 e0.2 true) ++ windowFlat (e2 :: t)) ++ cbrace) :=
          runLines_window_reading fD lD (e2 :: t) _ rest hWin
      _ = .ok ((acc ++ windowFlat (e0 :: e2 :: t)) ++ cbrace) := by
          simp [windowFlat, List.append_assoc]

/-- The extractor on a document made of skippable lines, then a well-formed
window of records whose last record closes with no trailing separator
(the physically last record), then arbitrary unread lines: it reaches the
resolved state with exactly the window's standalone object text. -/
theorem scanStream_window (fD lD : List Char) (pre : List (List Char))
    (e0 : List Char × Ohlc) (tail : List (List Char × Ohlc))
    (post : List (List Char)) (hpre : ∀ l ∈ pre, skipLineOk fD l)
    (hStart : includes (openL e0.1) fD = true) (h : windowOk lD (e0 :: tail)) :
    scanStreamForTimeInterval (pre ++ (windowLinesDoc (e0 :: tail) ++ post)) fD lD =
      .ok (windowText (e0 :: tail)) := by
  rw [scanStreamForTimeInterval, runLines_skip fD lD false obrace pre _ hpre,
    runLines_window_start fD lD e0 tail obrace post hStart h]
  simp [windowText, List.append_assoc]

/-- The extractor on a document containing a single-record window (the same
record satisfies the open and the close trigger), with the record's closing
line carrying a trailing separator or not: it resolves with that record's
standalone object text. -/
theorem scanStream_singleRecord (fD lD : List Char) (pre : List (List Char))
    (d : List Char) (r : Ohlc) (comma : Bool) (post : List (List Char))
    (hpre : ∀ l ∈ pre, skipLineOk fD l) (h : lastOk (d, r))
    (hStart : includes (openL d) fD = true) (hLast : includes (openL d) lD = true) :
    scanStreamForTimeInterval (pre ++ (recordLines d r comma ++ post)) fD lD =
      .ok (windowText [(d, r)]) := by
  rw [scanStreamForTimeInterval, runLines_skip fD lD false obrace pre _ hpre,
    runLines_singleRecord fD lD d r comma obrace post h hStart hLast]
  simp [windowText, windowFlat, List.append_assoc]

/-- Reading up to a quote consumes exactly the quote-free prefix. -/
theorem takeUntilQuote_append (s r : List Char) (h : '"' ∉ s) :
    takeUntilQuote (s ++ '"' :: r) = some (s, r) := by
  induction s with
  | nil => simp [takeUntilQuote]
  | cons c t ih =>
    have hc : ¬(c = '"') := fun hcq => h (hcq ▸ List.mem_cons_self c t)
    have ht : '"' ∉ t := fun hm => h (List.mem_cons_of_mem c hm)
    simp only [List.cons_append, takeUntilQuote, if_neg hc]
    simp only [List.append_eq, ih ht]

/-- Skipping whitespace passes over a non-whitespace head unchanged. -/
theorem skipWs_cons (c : Char) (x : List Char)
    (h : (c = ' ' || c = '\n' || c = '\t' || c = '\r') = false) :
    skipWs (c :: x) = c :: x := by
  simp only [skipWs, List.dropWhile_cons, h, Bool.false_eq_true, if_false]

/-- Skipping whitespace drops a leading space. -/
theorem skipWs_space (x : List Char) : skipWs (' ' :: x) = skipWs x := by
  simp [skipWs, List.dropWhile_cons]

/-- Parsing a quoted token at a quote-delimited prefix. -/
theorem parseQuoted_flat (s r : List Char) (h : '"' ∉ s) :
    parseQuoted ('"' :: (s ++ '"' :: r)) = some (s, r) := by
  rw [parseQuoted, skipWs_cons '"' _ (by decide)]
  simp [takeUntilQuote_append s r h]

/-- Parsing a quoted token ignores a leading space. -/
theorem parseQuoted_space (x : List Char) :
    parseQuoted (' ' :: x) = parseQuoted x := by
  rw [parseQuoted, parseQuoted, skipWs_space]

/-- Expecting a non-whitespace character that is present. -/
theorem expectChar_cons (c : Char) (r : List Char)
    (h : (c = ' ' || c = '\n' || c = '\t' || c = '\r') = false) :
    expectChar c (c :: r) = some r := by
  rw [expectChar, skipWs_cons c r h]
  simp

/-- Expecting a character skips a leading space. -/
theorem expectChar_space (c : Char) (x : List Char) :
    expectChar c (' ' :: x) = expectChar c x := by
  rw [expectChar, expectChar, skipWs_space]

/-- Parsing one field line: the key and value are recovered and the
trailing separator (when present) is left for the caller. -/
theorem parseKV_field (k v : List Char) (comma : Bool) (more : List Char)
    (hk : '"' ∉ k) (hv : '"' ∉ v) :
    parseKV (fieldL k v comma ++ more) =
      some ((k, v), if comma then ',' :: more else more) := by
  have h1 : fieldL k v comma ++ more =
      '"' :: (k ++ '"' :: (':' :: (' ' :: ('"' :: (v ++ '"' ::
        (if comma then ',' :: more else more)))))) := by
    cases comma <;> simp [fieldL, List.append_assoc]
  rw [h1, parseKV]
  rw [parseQuoted_flat k _ hk]
  simp only [Option.bind_eq_bind, Option.some_bind]
  rw [expectChar_cons ':' _ (by decide)]
  simp only [Option.some_bind]
  rw [parseQuoted_space, parseQuoted_flat v _ hv]
  simp

/-- Parsing one day's sub-record body recovers the four key/value pairs and
leaves the text after the record's closing brace. -/
theorem parseRecordBody_flat (r : Ohlc) (comma : Bool) (more : List Char)
    (h1 : '"' ∉ r.opening) (h2 : '"' ∉ r.high) (h3 : '"' ∉ r.low)
    (h4 : '"' ∉ r.closing) :
    parseRecordBody (fieldL key1 r.opening true ++ (fieldL key2 r.high true ++
      (fieldL key3 r.low true ++ (fieldL key4 r.closing false ++
      (closeL comma ++ more))))) =
      some (recordKVs r, if comma then ',' :: more else more) := by
  have hk1 : ('"' : Char) ∉ key1 := by decide
  have hk2 : ('"' : Char) ∉ key2 := by decide
  have hk3 : ('"' : Char) ∉ key3 := by decide
  have hk4 : ('"' : Char) ∉ key4 := by decide
  rw [parseRecordBody]
  rw [parseKV_field key1 r.opening true _ hk1 h1]
  simp only [Option.bind_eq_bind, Option.some_bind, if_pos rfl, reduceIte]
  rw [expectChar_cons ',' _ (by decide)]
  simp only [Option.some_bind]
  rw [parseKV_field key2 r.high true _ hk2 h2]
  simp only [Option.some_bind, Bool.false_eq_true, Bool.true_eq_false, if_false, if_true, reduceIte]
  rw [expectChar_cons ',' _ (by decide)]
  simp only [Option.some_bind]
  rw [parseKV_field key3 r.low true _ hk3 h3]
  simp only [Option.some_bind, Bool.false_eq_true, Bool.true_eq_false, if_false, if_true, reduceIte]
  rw [expectChar_cons ',' _ (by decide)]
  simp only [Option.some_bind]
  rw [parseKV_field key4 r.closing false _ hk4 h4]
  simp only [Option.some_bind, Bool.false_eq_true, Bool.true_eq_false, if_false, if_true, reduceIte]
  cases comma with
  | true =>
    have : closeL true ++ more = '\x7d' :: (',' :: more) := by simp [closeL]
    rw [this, expectChar_cons '\x7d' _ (by decide)]
    simp [recordKVs]
  | false =>
    have : closeL false ++ more = '\x7d' :: more := by simp [closeL]
    rw [this, expectChar_cons '\x7d' _ (by decide)]
    simp [recordKVs]

/-- One record of a run, with a trailing separator, parses to its entry and
hands the remainder to the continuation. -/
theorem parseEntriesF_record_comma (fuel : Nat) (d : List Char) (r : Ohlc)
    (more : List Char) (hd : '"' ∉ d) (h1 : '"' ∉ r.opening) (h2 : '"' ∉ r.high)
    (h3 : '"' ∉ r.low) (h4 : '"' ∉ r.closing) :
    parseEntriesF (fuel + 1) (recordFlat d r true ++ more) =
      (parseEntriesF fuel more).bind
        (fun p => some ((d, recordKVs r) :: p.1, p.2)) := by
  have hshape : recordFlat d r true ++ more =
      '"' :: (d ++ '"' :: (':' :: (' ' :: ('\x7b' :: (fieldL key1 r.opening true ++
      (fieldL key2 r.high true ++ (fieldL key3 r.low true ++
      (fieldL key4 r.closing false ++ (closeL true ++ more))))))))) := by
    simp [recordFlat, openL, List.append_assoc]
  rw [hshape, parseEntriesF]
  rw [parseQuoted_flat d _ hd]
  simp only [Option.bind_eq_bind, Option.some_bind]
  rw [expectChar_cons ':' _ (by decide)]
  simp only [Option.some_bind]
  rw [expectChar_space, expectChar_cons '\x7b' _ (by decide)]
  simp only [Option.some_bind]
  rw [parseRecordBody_flat r true more h1 h2 h3 h4]
  simp only [Option.some_bind, Bool.false_eq_true, Bool.true_eq_false, if_false, if_true, reduceIte]
  rw [skipWs_cons ',' _ (by decide)]
  simp only [reduceIte]
  rfl

/-- The final record of a run (no trailing separator), followed by the
enclosing object's closing brace, parses to the singleton entry list. -/
theorem parseEntriesF_record_last (fuel : Nat) (d : List Char) (r : Ohlc)
    (rest : List Char) (hd : '"' ∉ d) (h1 : '"' ∉ r.opening) (h2 : '"' ∉ r.high)
    (h3 : '"' ∉ r.low) (h4 : '"' ∉ r.closing) :
    parseEntriesF (fuel + 1) (recordFlat d r false ++ ('\x7d' :: rest)) =
      some ([(d, recordKVs r)], rest) := by
  have hshape : recordFlat d r false ++ ('\x7d' :: rest) =
      '"' :: (d ++ '"' :: (':' :: (' ' :: ('\x7b' :: (fieldL key1 r.opening true ++
      (fieldL key2 r.high true ++ (fieldL key3 r.low true ++
      (fieldL key4 r.closing false ++ (closeL false ++ ('\x7d' :: rest)))))))))) := by
    simp [recordFlat, openL, List.append_assoc]
  rw [hshape, parseEntriesF]
  rw [parseQuoted_flat d _ hd]
  simp only [Option.bind_eq_bind, Option.some_bind]
  rw [expectChar_cons ':' _ (by decide)]
  simp only [Option.some_bind]
  rw [expectChar_space, expectChar_cons '\x7b' _ (by decide)]
  simp only [Option.some_bind]
  rw [parseRecordBody_flat r false ('\x7d' :: rest) h1 h2 h3 h4]
  simp only [Option.some_bind, Bool.false_eq_true, Bool.true_eq_false, if_false, if_true, reduceIte]
  rw [skipWs_cons '\x7d' _ (by decide)]
  simp only [reduceIte]
  rfl

/-- A record's flattened text is never empty. -/
theorem recordFlat_length_pos (d : List Char) (r : Ohlc) (comma : Bool) :
    0 < (recordFlat d r comma).length := by
  simp [recordFlat, List.length_append, openL]

/-- A run of records has at least as many characters as records. -/
theorem windowFlat_length_ge (w : List (List Char × Ohlc)) :
    w.length ≤ (windowFlat w).length := by
  induction w with
  | nil => simp [windowFlat]
  | cons e tail ih =>
    cases tail with
    | nil =>
      have := recordFlat_length_pos e.1 e.2 false
      simp only [windowFlat, List.length_cons, List.length_nil]
      omega
    | cons e2 t =>
      have h1 := recordFlat_length_pos e.1 e.2 true
      simp only [windowFlat, List.length_cons, List.length_append] at ih ⊢
      omega

/-- Parsing the flattened run of records followed by the enclosing closing
brace yields exactly the run's entries in order. -/
theorem parseEntriesF_window (w : List (List Char × Ohlc)) (rest : List Char)
    (hw : w ≠ []) (hc : ∀ e ∈ w, cleanEntry e) :
    ∀ fuel, w.length ≤ fuel →
    parseEntriesF fuel (windowFlat w ++ '\x7d' :: rest) =
      some (w.map parsedEntry, rest) := by
  induction w with
  | nil => exact absurd rfl hw
  | cons e tail ih =>
    intro fuel hfuel
    obtain ⟨f, rfl⟩ : ∃ f, fuel = f + 1 := by
      refine ⟨fuel - 1, ?_⟩
      simp only [List.length_cons] at hfuel
      omega
    obtain ⟨hd, h1, h2, h3, h4⟩ := hc e (List.mem_cons_self e tail)
    cases tail with
    | nil =>
      have hsh : windowFlat [e] ++ '\x7d' :: rest =
          recordFlat e.1 e.2 false ++ ('\x7d' :: rest) := by simp [windowFlat]
      rw [hsh, parseEntriesF_record_last f e.1 e.2 rest hd h1 h2 h3 h4]
      simp [parsedEntry, recordKVs]
    | cons e2 t =>
      have hsh : windowFlat (e :: e2 :: t) ++ '\x7d' :: rest =
          recordFlat e.1 e.2 true ++ (windowFlat (e2 :: t) ++ '\x7d' :: rest) := by
        simp [windowFlat, List.append_assoc]
      rw [hsh, parseEntriesF_record_comma f e.1 e.2 _ hd h1 h2 h3 h4]
      rw [ih (List.cons_ne_nil e2 t)
        (fun x hx => hc x (List.mem_cons_of_mem e hx)) f
        (by simp only [List.length_cons] at hfuel ⊢; omega)]
      simp [parsedEntry, recordKVs]

/-- The structural parse of a well-formed window's standalone object text
yields exactly the window's entries, in source order. -/
theorem recordFlat_eq_cons (d : List Char) (r : Ohlc) (comma : Bool) :
    recordFlat d r comma = '"' :: (d ++ ('"' :: ':' :: ' ' :: '\x7b' ::
      (fieldL key1 r.opening true ++ (fieldL key2 r.high true ++
      (fieldL key3 r.low true ++ (fieldL key4 r.closing false ++ closeL comma)))))) := by
  simp [recordFlat, openL, List.append_assoc]

/-- A non-empty run of records starts with a double quote. -/
theorem windowFlat_head (w : List (List Char × Ohlc)) (hw : w ≠ []) :
    ∃ z, windowFlat w = '"' :: z := by
  match w, hw with
  | e :: tail, _ =>
    cases tail with
    | nil =>
      exact ⟨_, by rw [show windowFlat [e] = recordFlat e.1 e.2 false from rfl,
        recordFlat_eq_cons]⟩
    | cons e2 t =>
      exact ⟨_, by rw [show windowFlat (e :: e2 :: t) =
        recordFlat e.1 e.2 true ++ windowFlat (e2 :: t) from rfl,
        recordFlat_eq_cons, List.cons_append]⟩

/-- The structural parse of a well-formed window's standalone object text
yields exactly the window's entries, in source order. -/
theorem parseJSONHistory_window (w : List (List Char × Ohlc)) (hw : w ≠ [])
    (hc : ∀ e ∈ w, cleanEntry e) :
    parseJSONHistory (windowText w) = some (w.map parsedEntry) := by
  obtain ⟨z0, hz0⟩ := windowFlat_head w hw
  have hz : windowFlat w ++ ['\x7d'] = '"' :: (z0 ++ ['\x7d']) := by
    rw [hz0, List.cons_append]
  have hskip : skipWs (windowFlat w ++ ['\x7d']) = windowFlat w ++ ['\x7d'] := by
    rw [hz]
    exact skipWs_cons '"' _ (by decide)
  have hhead : (skipWs (windowFlat w ++ ['\x7d'])).headD ' ' = '"' := by
    rw [hskip, hz]
    rfl
  have hwt : windowText w = '\x7b' :: (windowFlat w ++ ['\x7d']) := by
    simp [windowText, obrace, cbrace]
  rw [hwt]
  simp only [parseJSONHistory, skipWs_cons '\x7b' _ (by decide)]
  rw [if_true]
  rw [if_neg (show ¬((skipWs (windowFlat w ++ ['\x7d'])).headD ' ' = '\x7d') by
    rw [hhead]; decide)]
  have hlen : w.length ≤ (windowFlat w ++ ['\x7d']).length + 1 := by
    have := windowFlat_length_ge w
    simp only [List.length_append, List.length_cons, List.length_nil]
    omega
  have hrun : windowFlat w ++ ['\x7d'] = windowFlat w ++ '\x7d' :: [] := rfl
  rw [hrun, parseEntriesF_window w [] hw hc _ (by simpa using hlen)]
  simp [skipWs]

/-- Formatting the parsed entries of a run of records yields the typed
price points of those records, in order. -/
theorem formatJSONHistoryObject_window (w : List (List Char × Ohlc)) :
    formatJSONHistoryObject (w.map parsedEntry) = w.map formatOf := by
  have k21 : (key2 == key1) = false := by decide
  have k31 : (key3 == key1) = false := by decide
  have k41 : (key4 == key1) = false := by decide
  have k32 : (key3 == key2) = false := by decide
  have k42 : (key4 == key2) = false := by decide
  have k43 : (key4 == key3) = false := by decide
  rw [formatJSONHistoryObject, List.map_map]
  refine List.map_congr_left ?_
  intro e _
  simp [parsedEntry, formatOf, lookupValue, List.lookup, beq_self_eq_true,
    k21, k31, k41, k32, k42, k43]

/-- The extraction pipeline on a document whose requested window ends at
the physically last record: scanning, parsing and formatting succeed with
exactly the window's price points. -/
theorem search_window (fromD toD : String) (pre : List (List Char))
    (e0 : List Char × Ohlc) (tail : List (List Char × Ohlc))
    (post : List (List Char)) (hpre : ∀ l ∈ pre, skipLineOk toD.data l)
    (hStart : includes (openL e0.1) toD.data = true)
    (hwin : windowOk fromD.data (e0 :: tail))
    (hc : ∀ e ∈ e0 :: tail, cleanEntry e) :
    searchTimeIntervalInHistory (pre ++ (windowLinesDoc (e0 :: tail) ++ post))
      fromD toD = .ok ((e0 :: tail).map formatOf) := by
  rw [searchTimeIntervalInHistory]
  rw [show (formatDateOnly toD).data = toD.data from rfl,
    show (formatDateOnly fromD).data = fromD.data from rfl]
  rw [scanStream_window toD.data fromD.data pre e0 tail post hpre hStart hwin]
  simp only [parseJSONHistory_window (e0 :: tail) (List.cons_ne_nil e0 tail) hc,
    formatJSONHistoryObject_window]

/-- The extraction pipeline on a document containing the single-day window
record anywhere (its closing line with or without a trailing separator):
scanning, parsing and formatting succeed with exactly that one price
point. -/
theorem search_singleRecord (fromD toD : String) (pre : List (List Char))
    (d : List Char) (r : Ohlc) (comma : Bool) (post : List (List Char))
    (hpre : ∀ l ∈ pre, skipLineOk toD.data l) (h : lastOk (d, r))
    (hStart : includes (openL d) toD.data = true)
    (hLast : includes (openL d) fromD.data = true) (hc : cleanEntry (d, r)) :
    searchTimeIntervalInHistory (pre ++ (recordLines d r comma ++ post))
      fromD toD = .ok [formatOf (d, r)] := by
  rw [searchTimeIntervalInHistory]
  rw [show (formatDateOnly toD).data = toD.data from rfl,
    show (formatDateOnly fromD).data = fromD.data from rfl]
  rw [scanStream_singleRecord toD.data fromD.data pre d r comma post hpre h hStart hLast]
  have hcl : ∀ e ∈ [(d, r)], cleanEntry e := by
    intro e he
    simp only [List.mem_singleton] at he
    subst he
    exact hc
  simp only [parseJSONHistory_window [(d, r)] (List.cons_ne_nil _ _) hcl,
    formatJSONHistoryObject_window]
  simp

/-- When no line of the source carries the open-boundary trigger or the
error marker, the scanner stays idle until the stream ends and the
extraction fails with the date-not-found rejection. -/
theorem scanStream_noStart (lines : List (List Char)) (fD lD : List Char)
    (h : ∀ l ∈ lines, skipLineOk fD l) :
    scanStreamForTimeInterval lines fD lD = .error .fromto := by
  rw [scanStreamForTimeInterval, show lines = lines ++ [] by simp,
    runLines_skip fD lD false obrace lines [] h]
  rfl

/-- A line carrying the provider's error marker, reached while the promise
is still pending, settles the scan with the stock-not-found rejection,
whatever follows. -/
theorem runLines_marker (fD lD : List Char) (reading ending : Bool)
    (acc : List Char) (pre : List (List Char)) (m : List Char)
    (post : List (List Char)) (r2 e2 : Bool) (a2 : List Char)
    (hpre : runLines fD lD reading ending acc pre = .running r2 e2 a2)
    (hm : includes m errMarker = true) :
    runLines fD lD reading ending acc (pre ++ m :: post) = .errStock := by
  rw [runLines_append, hpre]
  simp [runLines, hm]

/-- The extraction aborts with the stock-not-found rejection when a marker
line occurs before the scan has settled. -/
theorem scanStream_marker (fD lD : List Char) (pre : List (List Char))
    (m : List Char) (post : List (List Char)) (r2 e2 : Bool) (a2 : List Char)
    (hpre : runLines fD lD false false obrace pre = .running r2 e2 a2)
    (hm : includes m errMarker = true) :
    scanStreamForTimeInterval (pre ++ m :: post) fD lD = .error .stock := by
  rw [scanStreamForTimeInterval,
    runLines_marker fD lD false false obrace pre m post r2 e2 a2 hpre hm]

/-- The comparison loop collects, over the symbol list in order: the
successes, the concatenation of the error lists, and the concatenation of
the per-symbol collaborator-call traces. -/
theorem compareLoop_eq (env : Env) (L : List String) :
    compareLoop env L =
      (L.filterMap (fun x => successOf (getStockBySymbol env x).1),
       (L.map (fun x => errorsOf (getStockBySymbol env x).1)).flatten,
       (L.map (fun x => (getStockBySymbol env x).2)).flatten) := by
  induction L with
  | nil => simp [compareLoop]
  | cons x xs ih =>
    rw [compareLoop, ih]
    cases hx : (getStockBySymbol env x).1 with
    | success q => simp [hx, successOf, errorsOf]
    | errors es => simp [hx, successOf, errorsOf]

/-- Every failure list `getStockBySymbol` can return is non-empty, provided
the validation collaborator honors the result-envelope invariant (it never
returns an empty error list). -/
theorem getStockBySymbol_errors_ne_nil (env : Env)
    (hwf : ∀ cs, env.getValidationErrors cs ≠ some []) (x : String)
    (es : List ApiErr) (h : (getStockBySymbol env x).1 = .errors es) : es ≠ [] := by
  rw [getStockBySymbol] at h
  cases hv : env.getValidationErrors (quoteChecks x) with
  | some errs =>
    rw [hv] at h
    simp at h
    subst h
    exact fun hnil => hwf (quoteChecks x) (hnil ▸ hv)
  | none =>
    rw [hv] at h
    cases hy : env.yahooGetStockBySymbol x with
    | ok sym p t =>
      rw [hy] at h
      simp at h
    | fault code =>
      rw [hy] at h
      by_cases hc : code = "Not Found"
      · simp [hc] at h
        subst h
        simp
      · simp [hc] at h
        subst h
        simp

/-- C5: for every non-empty ordered symbol list given to the quote
comparison, the individual quote lookup is invoked once per symbol in input
order (the collaborator-call trace is exactly the concatenation of the
per-symbol lookup traces, in input order); if any lookup fails the result
is the concatenation of every individual failure in input order; the
result is a success, with the quotes in input order, exactly when no
lookup fails. -/
theorem compareStockBySymbols_characterization (env : Env) (stock_name : String)
    (stocks : List String) (hwf : ∀ cs, env.getValidationErrors cs ≠ some []) :
    (compareStockBySymbols env stock_name stocks).2 =
        ((stock_name :: stocks).map (fun x => (getStockBySymbol env x).2)).flatten ∧
    ((∃ x ∈ stock_name :: stocks, ∃ es, (getStockBySymbol env x).1 = .errors es) →
      (compareStockBySymbols env stock_name stocks).1 =
        .errors (((stock_name :: stocks).map
          (fun x => errorsOf (getStockBySymbol env x).1)).flatten)) ∧
    ((∀ x ∈ stock_name :: stocks, ∃ q, (getStockBySymbol env x).1 = .success q) →
      (compareStockBySymbols env stock_name stocks).1 =
        .success ⟨(stock_name :: stocks).filterMap
          (fun x => successOf (getStockBySymbol env x).1)⟩) ∧
    (∀ res, (compareStockBySymbols env stock_name stocks).1 = .success res →
      ∀ x ∈ stock_name :: stocks, ∃ q, (getStockBySymbol env x).1 = .success q) := by
  have hloop := compareLoop_eq env (stock_name :: stocks)
  refine ⟨?_, ?_, ?_, ?_⟩
  · rw [compareStockBySymbols, hloop]
  · rintro ⟨x, hx, es, hes⟩
    have hne : es ≠ [] := getStockBySymbol_errors_ne_nil env hwf x es hes
    have hmem : errorsOf (getStockBySymbol env x).1 ∈
        ((stock_name :: stocks).map (fun y => errorsOf (getStockBySymbol env y).1)) :=
      List.mem_map_of_mem _ hx
    have hflat : ((stock_name :: stocks).map
        (fun y => errorsOf (getStockBySymbol env y).1)).flatten ≠ [] := by
      intro hnil
      rw [List.flatten_eq_nil_iff] at hnil
      exact hne (by simpa [errorsOf, hes] using hnil _ hmem)
    rw [compareStockBySymbols, hloop]
    simp only []
    rw [if_pos (by exact List.length_pos.mpr hflat)]
  · intro hall
    have hflat : ((stock_name :: stocks).map
        (fun y => errorsOf (getStockBySymbol env y).1)).flatten = [] := by
      rw [List.flatten_eq_nil_iff]
      intro l hl
      obtain ⟨y, hy, rfl⟩ := List.mem_map.mp hl
      obtain ⟨q, hq⟩ := hall y hy
      simp [errorsOf, hq]
    rw [compareStockBySymbols, hloop]
    simp only []
    rw [if_neg (by rw [hflat]; simp)]
  · intro res hres x hx
    rw [compareStockBySymbols, hloop] at hres
    simp only [] at hres
    by_cases hflat : (((stock_name :: stocks).map
        (fun y => errorsOf (getStockBySymbol env y).1)).flatten).length > 0
    · rw [if_pos hflat] at hres
      exact absurd hres (by simp)
    · rw [if_neg hflat] at hres
      have hnil : ((stock_name :: stocks).map
          (fun y => errorsOf (getStockBySymbol env y).1)).flatten = [] :=
        List.length_eq_zero.mp (Nat.eq_zero_of_not_pos hflat)
      rw [List.flatten_eq_nil_iff] at hnil
      have hx0 : errorsOf (getStockBySymbol env x).1 = [] :=
        hnil _ (List.mem_map_of_mem _ hx)
      cases hcase : (getStockBySymbol env x).1 with
      | success q => exact ⟨q, rfl⟩
      | errors es =>
        have := getStockBySymbol_errors_ne_nil env hwf x es hcase
        rw [hcase] at hx0
        exact absurd hx0 this

/-- C9: for every outward operation, a defined (in particular any
non-empty) validation-error list for the operation's parameters is
returned verbatim and the operation's collaborator-call trace holds only
the validation call — no provider call is made; the comparison operation
issues no validation call of its own: its trace is exactly the
concatenation of the per-symbol quote-lookup traces, so per-symbol
validation is delegated to the individual quote lookup. -/
theorem validation_shortCircuit (env : Env) (s fromD toD amt atD : String)
    (stocks : List String) :
    (∀ errs, env.getValidationErrors (quoteChecks s) = some errs →
      (getStockBySymbol env s).1 = .errors errs ∧
      (getStockBySymbol env s).2 = [.validateCall (quoteChecks s)]) ∧
    (∀ errs, env.getValidationErrors (historyChecks s fromD toD) = some errs →
      (getStockHistoryBySymbol env s fromD toD).1 = .errors errs ∧
      (getStockHistoryBySymbol env s fromD toD).2 =
        [.validateCall (historyChecks s fromD toD)]) ∧
    (∀ errs, env.getValidationErrors (gainsChecks s amt atD) = some errs →
      (projectGains env s amt atD).1 = .errors errs ∧
      (projectGains env s amt atD).2 = [.validateCall (gainsChecks s amt atD)]) ∧
    (compareStockBySymbols env s stocks).2 =
      ((s :: stocks).map (fun x => (getStockBySymbol env x).2)).flatten := by
  refine ⟨?_, ?_, ?_, ?_⟩
  · intro errs h
    rw [getStockBySymbol, h]
    exact ⟨rfl, rfl⟩
  · intro errs h
    rw [getStockHistoryBySymbol, h]
    exact ⟨rfl, rfl⟩
  · intro errs h
    rw [projectGains, h]
    exact ⟨rfl, rfl⟩
  · rw [compareStockBySymbols, compareLoop_eq]

/-- C10: a successful history-window result and a successful
gains-projection result report the uppercased stock name, whatever casing
the caller supplied; a successful quote result reports the provider's own
symbol field unchanged. -/
theorem names_reported (env : Env) (s fromD toD amt atD : String) :
    (∀ h, (getStockHistoryBySymbol env s fromD toD).1 = .success h →
      h.name = toUpperStr s) ∧
    (∀ g, (projectGains env s amt atD).1 = .success g →
      g.name = toUpperStr s) ∧
    (∀ q, (getStockBySymbol env s).1 = .success q →
      ∃ sym price time, env.yahooGetStockBySymbol s = .ok sym price time ∧
        q.name = sym) := by
  refine ⟨?_, ?_, ?_⟩
  · intro h hh
    rw [getStockHistoryBySymbol] at hh
    cases hv : env.getValidationErrors (historyChecks s fromD toD) with
    | some errs => rw [hv] at hh; simp at hh
    | none =>
      rw [hv] at hh
      cases hs : searchTimeIntervalInHistory (env.alphaHistoryLines s) fromD toD with
      | ok prices =>
        rw [hs] at hh
        simp at hh
        rw [← hh]
      | error e =>
        rw [hs] at hh
        cases e <;> simp at hh
  · intro g hg
    rw [projectGains] at hg
    cases hv : env.getValidationErrors (gainsChecks s amt atD) with
    | some errs => rw [hv] at hg; simp at hg
    | none =>
      rw [hv] at hg
      simp only [] at hg
      cases ht : (getStockBySymbol env s).1 with
      | errors es => simp only [ht] at hg; exact absurd hg (by simp)
      | success q =>
        simp only [ht] at hg
        cases ho : (getStockHistoryBySymbol env s atD atD).1 with
        | errors es => simp only [ho] at hg; exact absurd hg (by simp)
        | success h =>
          simp only [ho] at hg
          have := congrArg GetProjectedGains.name (CtrlResult.success.inj hg)
          simpa using this.symm
  · intro q hq
    rw [getStockBySymbol] at hq
    cases hv : env.getValidationErrors (quoteChecks s) with
    | some errs => rw [hv] at hq; simp at hq
    | none =>
      rw [hv] at hq
      cases hy : env.yahooGetStockBySymbol s with
      | ok sym price time =>
        rw [hy] at hq
        simp at hq
        exact ⟨sym, price, time, rfl, by rw [← hq]⟩
      | fault code =>
        rw [hy] at hq
        by_cases hc : code = "Not Found" <;> simp [hc] at hq

/-- C1 (as the code has it): when the concurrently issued quote lookup
fails, its failure is returned — even when the single-day history lookup
failed too; the history side's failure (after the two-error collapse) is
returned only when the quote side succeeded. -/
theorem projectGains_failurePrecedence (env : Env) (s amt atD : String)
    (hval : env.getValidationErrors (gainsChecks s amt atD) = none) :
    (∀ qe, (getStockBySymbol env s).1 = .errors qe →
      (projectGains env s amt atD).1 = .errors qe) ∧
    (∀ q he, (getStockBySymbol env s).1 = .success q →
      (getStockHistoryBySymbol env s atD atD).1 = .errors he →
      (projectGains env s amt atD).1 = .errors (collapseDateErrors atD he)) := by
  constructor
  · intro qe hq
    rw [projectGains, hval]
    simp only [hq]
  · intro q he hq hh
    rw [projectGains, hval]
    simp only [hq, hh]

/-- C3 (amended): when the quote lookup succeeds and the single-day history
lookup fails with the internal two-error result `[NotFound(from),
NotFound(to)]`, the caller receives exactly the single error
`NotFound(purchasedAt)`. -/
theorem projectGains_dateCollapse (env : Env) (s amt atD : String)
    (hval : env.getValidationErrors (gainsChecks s amt atD) = none)
    (q : GetStockBySymbol) (hq : (getStockBySymbol env s).1 = .success q)
    (hh : (getStockHistoryBySymbol env s atD atD).1 =
      .errors [.notFound "from" atD, .notFound "to" atD]) :
    (projectGains env s amt atD).1 = .errors [.notFound "purchasedAt" atD] := by
  rw [projectGains, hval]
  simp only [hq, hh]
  rfl

/-- C8: when both the quote and the single-day history lookup succeed, the
returned capital gains equal the purchased amount times the difference of
the current price and the historical closing price, rounded to two decimal
places — the code's `amount*current - amount*close` before rounding equals
the specification's `amount*(current - close)`. -/
theorem capitalGains_formula (env : Env) (s amt atD : String)
    (hval : env.getValidationErrors (gainsChecks s amt atD) = none)
    (q : GetStockBySymbol) (h : GetStockHistoryBySymbol) (p : HistoricPrices)
    (rest : List HistoricPrices)
    (hq : (getStockBySymbol env s).1 = .success q)
    (hh : (getStockHistoryBySymbol env s atD atD).1 = .success h)
    (hp : h.prices = p :: rest) :
    (projectGains env s amt atD).1 = .success
      { name := toUpperStr s
        lastPrice := q.lastPrice
        priceAtDate := p.closing
        purchasedAmount := numOfStringS amt
        purchasedAt := isoOfDateOnly atD
        capitalGains := round2 (numOfStringS amt * (q.lastPrice - p.closing)) } := by
  rw [projectGains, hval]
  simp only [hq, hh, hp]
  have hfc : firstClosing (p :: rest) = p.closing := rfl
  have harith : q.lastPrice * numOfStringS amt - p.closing * numOfStringS amt =
      numOfStringS amt * (q.lastPrice - p.closing) := by ring
  rw [hfc, harith]

/-- C2: for every extraction whose window's final entry is the physically
last record of the source document (its closing line has no trailing
separator), the extractor still resolves and the operation succeeds with
syntactically valid output — the window's price points; moreover the
trailing-separator trim leaves any text that does not end in a separator
unchanged (it is applied only when a separator is present, never
unconditionally). -/
theorem lastRecordWindow_extraction (env : Env) (s fromD toD : String)
    (pre : List (List Char)) (e0 : List Char × Ohlc)
    (tail : List (List Char × Ohlc)) (post : List (List Char))
    (hval : env.getValidationErrors (historyChecks s fromD toD) = none)
    (hlines : env.alphaHistoryLines s = pre ++ (windowLinesDoc (e0 :: tail) ++ post))
    (hpre : ∀ l ∈ pre, skipLineOk toD.data l)
    (hStart : includes (openL e0.1) toD.data = true)
    (hwin : windowOk fromD.data (e0 :: tail))
    (hc : ∀ e ∈ e0 :: tail, cleanEntry e) :
    (getStockHistoryBySymbol env s fromD toD).1 =
      .success { name := toUpperStr s, prices := (e0 :: tail).map formatOf } ∧
    (∀ acc : List Char, acc.getLast? ≠ some ',' →
      removeLastCommaIfNecessary acc = acc) := by
  constructor
  · rw [getStockHistoryBySymbol, hval]
    simp only [hlines,
      search_window fromD toD pre e0 tail post hpre hStart hwin hc]
  · intro acc hacc
    rw [removeLastCommaIfNecessary, if_neg hacc]

/-- C4: for every source in which the single-day boundary date's record
occurs once past a prefix of lines that never carry both the date token
and an object-start marker, extracting the window `[d, d]` succeeds using
that one record as both trigger lines and yields exactly one price point —
that record's. -/
theorem singleDayWindow_extraction (env : Env) (s d : String)
    (pre : List (List Char)) (r : Ohlc) (comma : Bool) (post : List (List Char))
    (hval : env.getValidationErrors (historyChecks s d d) = none)
    (hlines : env.alphaHistoryLines s = pre ++ (recordLines d.data r comma ++ post))
    (hpre : ∀ l ∈ pre, skipLineOk d.data l)
    (hrec : lastOk (d.data, r)) (hc : cleanEntry (d.data, r)) :
    (getStockHistoryBySymbol env s d d).1 =
      .success { name := toUpperStr s, prices := [formatOf (d.data, r)] } := by
  rw [getStockHistoryBySymbol, hval]
  simp only [hlines,
    search_singleRecord d d pre d.data r comma post hpre hrec
      (includes_openL_self d.data) (includes_openL_self d.data) hc]

/-- C6 (amended): when neither boundary date token occurs in any line of
the source and no line carries the provider's error marker, the operation
fails with exactly the two-error result `[NotFound(from), NotFound(to)]`
and no partial window is returned. -/
theorem noOverlap_twoErrors (env : Env) (s fromD toD : String)
    (hval : env.getValidationErrors (historyChecks s fromD toD) = none)
    (h : ∀ l ∈ env.alphaHistoryLines s, includes l toD.data = false ∧
      includes l fromD.data = false ∧ includes l errMarker = false) :
    (getStockHistoryBySymbol env s fromD toD).1 =
      .errors [.notFound "from" fromD, .notFound "to" toD] := by
  rw [getStockHistoryBySymbol, hval]
  have hscan : searchTimeIntervalInHistory (env.alphaHistoryLines s) fromD toD =
      .error .fromto := by
    rw [searchTimeIntervalInHistory]
    rw [show (formatDateOnly toD).data = toD.data from rfl,
      show (formatDateOnly fromD).data = fromD.data from rfl]
    rw [scanStream_noStart (env.alphaHistoryLines s) toD.data fromD.data
      (fun l hl => ⟨(h l hl).2.2, by rw [(h l hl).1]; rfl⟩)]
  simp only [hscan]

/-- C7: a line carrying the provider's error-marker text, reached while the
extraction has not yet settled (before or during accumulation), makes the
operation fail with exactly `[NotFound(stock_name)]`; no accumulated output
is surfaced. -/
theorem errorMarker_abort (env : Env) (s fromD toD : String)
    (pre : List (List Char)) (m : List Char) (post : List (List Char))
    (r2 e2 : Bool) (a2 : List Char)
    (hval : env.getValidationErrors (historyChecks s fromD toD) = none)
    (hlines : env.alphaHistoryLines s = pre ++ m :: post)
    (hpre : runLines toD.data fromD.data false false obrace pre = .running r2 e2 a2)
    (hm : includes m errMarker = true) :
    (getStockHistoryBySymbol env s fromD toD).1 =
      .errors [.notFound "stock_name" s] := by
  rw [getStockHistoryBySymbol, hval]
  have hscan : searchTimeIntervalInHistory (env.alphaHistoryLines s) fromD toD =
      .error .stock := by
    rw [searchTimeIntervalInHistory, hlines]
    rw [show (formatDateOnly toD).data = toD.data from rfl,
      show (formatDateOnly fromD).data = fromD.data from rfl]
    rw [scanStream_marker toD.data fromD.data pre m post r2 e2 a2 hpre hm]
  rw [hlines] at hscan
  simp only [hlines, hscan]


/-- C1 counterexample: a concrete run in which both the quote lookup and
the single-day history lookup fail; the caller receives the quote side's
failure, not the history side's collapsed failure, refuting the claimed
precedence. -/
theorem projectGains_bothFail_counterexample :
    (getStockBySymbol cenvBothFail "IBM").1 = .errors [.unknown] ∧
    (getStockHistoryBySymbol cenvBothFail "IBM" "2022-11-21" "2022-11-21").1 =
      .errors [.notFound "from" "2022-11-21", .notFound "to" "2022-11-21"] ∧
    (projectGains cenvBothFail "IBM" "10" "2022-11-21").1 = .errors [.unknown] ∧
    (CtrlResult.errors [ApiErr.unknown] : CtrlResult GetProjectedGains) ≠
      .errors [.notFound "purchasedAt" "2022-11-21"] := by decide

/-- C1 witness: the failure-precedence theorem applied at a concrete run in
which both sides fail: the quote failure is returned. -/
theorem projectGains_failurePrecedence_witness :
    (projectGains cenvBothFail "IBM" "10" "2022-11-21").1 = .errors [.unknown] :=
  (projectGains_failurePrecedence cenvBothFail "IBM" "10" "2022-11-21" rfl).1
    [.unknown] (by decide)

/-- C3 counterexample: a concrete run whose single-day history lookup fails
with the internal two-error result while the quote lookup also fails; the
caller receives the quote failure, not `NotFound(purchasedAt)`, refuting
the claim as universally stated. -/
theorem projectGains_dateCollapse_counterexample :
    (getStockHistoryBySymbol cenvBothFail "MSFT" "2022-11-22" "2022-11-22").1 =
      .errors [.notFound "from" "2022-11-22", .notFound "to" "2022-11-22"] ∧
    (projectGains cenvBothFail "MSFT" "10" "2022-11-22").1 = .errors [.unknown] ∧
    (CtrlResult.errors [ApiErr.unknown] : CtrlResult GetProjectedGains) ≠
      .errors [.notFound "purchasedAt" "2022-11-22"] := by decide

/-- C3 witness: the collapse theorem applied at a concrete run with a
successful quote and an empty history stream: the caller sees exactly
`NotFound(purchasedAt)`. -/
theorem projectGains_dateCollapse_witness :
    (projectGains cenvHistEmpty "ibm" "10" "2022-11-22").1 =
      .errors [.notFound "purchasedAt" "2022-11-22"] :=
  projectGains_dateCollapse cenvHistEmpty "ibm" "10" "2022-11-22" rfl
    { name := "IBM", lastPrice := 155, pricedAt := "1970-01-01T00:01:40.000Z" }
    (by decide) (by decide)

set_option maxRecDepth 400000 in
/-- C2 witness: extracting the three-day window ending at the concrete
document's physically last record succeeds with all three price points. -/
theorem lastRecordWindow_extraction_witness :
    (getStockHistoryBySymbol cenvA "ibm" "2022-11-18" "2022-11-22").1 =
      .success { name := toUpperStr "ibm",
                 prices := (("2022-11-22".data, exR1) :: [("2022-11-21".data, exR2),
                   ("2022-11-18".data, exR3)]).map formatOf } :=
  (lastRecordWindow_extraction cenvA "ibm" "2022-11-18" "2022-11-22" exHeader
    ("2022-11-22".data, exR1) [("2022-11-21".data, exR2), ("2022-11-18".data, exR3)]
    [] rfl (by decide) (by decide) (by decide) (by decide) (by decide)).1

set_option maxRecDepth 400000 in
/-- C4 witness: the single-day extraction at the concrete document's first
record yields exactly that record's price point. -/
theorem singleDayWindow_extraction_witness :
    (getStockHistoryBySymbol cenvA "ibm" "2022-11-22" "2022-11-22").1 =
      .success { name := toUpperStr "ibm",
                 prices := [formatOf ("2022-11-22".data, exR1)] } :=
  singleDayWindow_extraction cenvA "ibm" "2022-11-22" exHeader exR1 true
    (windowLinesDoc [("2022-11-21".data, exR2), ("2022-11-18".data, exR3)])
    rfl (by decide) (by decide) (by decide) (by decide)

/-- C5 witness: comparing two symbols that both fail yields the two
individual failures concatenated in input order. -/
theorem compareStockBySymbols_characterization_witness :
    (compareStockBySymbols cenvQuoteNF "aaa" ["bbb"]).1 =
      .errors [.notFound "stock_name" "aaa", .notFound "stock_name" "bbb"] := by
  have h := compareStockBySymbols_characterization cenvQuoteNF "aaa" ["bbb"]
    (fun _ hx => Option.noConfusion hx)
  rw [h.2.1 ⟨"aaa", by decide, [.notFound "stock_name" "aaa"], by decide⟩]
  decide

/-- C6 counterexample: a source whose only line is the provider's error
marker — neither boundary date appears in any line, yet the result is the
single stock-not-found error, not the two-error date result, refuting the
claim as universally stated. -/
theorem noOverlap_counterexample :
    (∀ l ∈ cenvMarker.alphaHistoryLines "IBM",
      includes l "2022-01-04".data = false ∧ includes l "2022-01-03".data = false) ∧
    (getStockHistoryBySymbol cenvMarker "IBM" "2022-01-03" "2022-01-04").1 =
      .errors [.notFound "stock_name" "IBM"] ∧
    (CtrlResult.errors [ApiErr.notFound "stock_name" "IBM"] :
      CtrlResult GetStockHistoryBySymbol) ≠
      .errors [.notFound "from" "2022-01-03", .notFound "to" "2022-01-04"] := by decide

set_option maxRecDepth 400000 in
/-- C6 witness: on the concrete document, asking for dates that never occur
yields exactly the two-error result. -/
theorem noOverlap_twoErrors_witness :
    (getStockHistoryBySymbol cenvA "ibm" "2022-11-11" "2022-11-15").1 =
      .errors [.notFound "from" "2022-11-11", .notFound "to" "2022-11-15"] :=
  noOverlap_twoErrors cenvA "ibm" "2022-11-11" "2022-11-15" rfl (by decide)

/-- C7 witness: a stream whose first line carries the error marker aborts
the extraction with the stock-not-found error. -/
theorem errorMarker_abort_witness :
    (getStockHistoryBySymbol cenvMarker "ibm" "2022-11-18" "2022-11-22").1 =
      .errors [.notFound "stock_name" "ibm"] :=
  errorMarker_abort cenvMarker "ibm" "2022-11-18" "2022-11-22" []
    ("  \"Error Message\": \"Invalid API call.\"".data) [] false false obrace
    rfl rfl rfl (by decide)

set_option maxRecDepth 400000 in
/-- C8 witness: the gains formula theorem applied at a concrete run in
which both lookups succeed. -/
theorem capitalGains_formula_witness :
    (projectGains cenvA "ibm" "10" "2022-11-22").1 = .success
      { name := toUpperStr "ibm"
        lastPrice := 155
        priceAtDate := (formatOf ("2022-11-22".data, exR1)).closing
        purchasedAmount := numOfStringS "10"
        purchasedAt := isoOfDateOnly "2022-11-22"
        capitalGains := round2 (numOfStringS "10" *
          (155 - (formatOf ("2022-11-22".data, exR1)).closing)) } :=
  capitalGains_formula cenvA "ibm" "10" "2022-11-22" rfl
    { name := "IBM", lastPrice := 155, pricedAt := "1970-01-01T00:01:40.000Z" }
    { name := toUpperStr "ibm", prices := [formatOf ("2022-11-22".data, exR1)] }
    (formatOf ("2022-11-22".data, exR1)) []
    (by decide) (by decide) rfl

/-- C9 witness: under an always-failing validation collaborator, the quote
operation returns the validation errors verbatim and the gains operation's
trace holds only its validation call. -/
theorem validation_shortCircuit_witness :
    (getStockBySymbol cenvValFail "ibm").1 = .errors [.notFound "stock_name" ""] ∧
    (projectGains cenvValFail "ibm" "10" "2022-11-22").2 =
      [.validateCall (gainsChecks "ibm" "10" "2022-11-22")] := by
  have h := validation_shortCircuit cenvValFail "ibm" "2022-11-18" "2022-11-22" "10"
    "2022-11-22" []
  exact ⟨(h.1 _ rfl).1, (h.2.2.1 _ rfl).2⟩

set_option maxRecDepth 400000 in
/-- C10 witness: the history success value on the concrete run reports the
uppercased stock name. -/
theorem names_reported_witness :
    ({ name := toUpperStr "ibm", prices := exRecords.map formatOf } :
      GetStockHistoryBySymbol).name = toUpperStr "ibm" :=
  (names_reported cenvA "ibm" "2022-11-18" "2022-11-22" "10" "2022-11-22").1
    { name := toUpperStr "ibm", prices := exRecords.map formatOf } (by decide)
